import Mathlib

/-!
# Verification of the wordle-solver core

Shallow embedding of the solver in `src/main.py` (class `WordleSolver`):
the feedback encoder `check_word`, the candidate filter `filter_wordlist`,
the penalty model `get_freq_penalty_dict`, and the guess selector
`get_best_guess`.

Modelling choices:
* a `Word` is a `List Char` (a Python string viewed as its characters);
* Python floats are modelled as rationals `ℚ` (every constant involved,
  `3, 2, 1.5, 1.25, 1.1, 1, 2.5`, and the arithmetic on them, is exact);
* the mutation of `self.wordlist_filtered` is made explicit: each pass of
  `filter_wordlist` takes the current list and returns the filtered one;
* `random.sample(population, k)` is modelled by an arbitrary `sampler`
  function; theorems that depend on its behaviour take the documented
  contract of `random.sample` (a sample of exactly `k` elements drawn from
  the population) as hypotheses;
* Python dicts keyed by the (duplicate-free) lexicon are modelled by
  association lists / functions, and iteration over them follows the
  insertion order, which is the iteration order of the underlying list.
-/

namespace WordleSolver

/-- A word: the list of characters of a Python string. -/
abbrev Word := List Char

/-! ## `check_word` (src/main.py lines 53-77)

Two passes over the five positions.  The green pass walks `zip(target,
guess)` and, at each exact match, writes `'G'` into the result and replaces
the matched letters by the sentinel `'-'` in the working copies of target
and guess.  The yellow pass then walks the remaining guess letters left to
right; a letter that is not the sentinel and still occurs in the working
target is marked `'Y'` and its first remaining occurrence in the target is
consumed (replaced by `'-'`). -/

/-- Green pass of `check_word`: simultaneous walk over target and guess,
returning (preliminary result, working target, working guess).  Positions
that do not match keep the `'X'` written by `result = ['X'] * 5`. -/
def greenPass : List Char → List Char → List Char × List Char × List Char
  | t :: ts, g :: gs =>
    let rest := greenPass ts gs
    if t = g then ('G' :: rest.1, '-' :: rest.2.1, '-' :: rest.2.2)
    else ('X' :: rest.1, t :: rest.2.1, g :: rest.2.2)
  | _, _ => ([], [], [])

/-- Yellow pass of `check_word`: walk the working guess and the preliminary
result in lockstep, carrying the working target.  A guess letter `g` with
`g != '-' and g in target` is marked `'Y'` and the first occurrence of `g`
in the working target (`target.index(g)`) is overwritten with `'-'`. -/
def yellowPass : List Char → List Char → List Char → List Char × List Char
  | g :: gs, r :: rs, target =>
    if g ≠ '-' ∧ g ∈ target then
      let rest := yellowPass gs rs (target.set (List.indexOf g target) '-')
      ('Y' :: rest.1, rest.2)
    else
      let rest := yellowPass gs rs target
      (r :: rest.1, rest.2)
  | _, rs, target => (rs, target)

/-- `WordleSolver.check_word(target, guess)`: the five-symbol feedback
string, e.g. `"XXGYX"`. -/
def check_word (target guess : List Char) : List Char :=
  let gp := greenPass target guess
  (yellowPass gp.2.2 gp.1 gp.2.1).1

/-! ## `filter_wordlist` (src/main.py lines 79-102)

Three passes over `zip(guess, result)`, each carrying the position index
`i` and the running `green` / `yellow` lists of confirmed letters. -/

/-- Green filter pass: for every position marked `'G'` keep only the words
with that letter at that position, and append the letter to `green`. -/
def filterGreens : List (Char × Char) → Nat → List Word → List Char →
    List Word × List Char
  | [], _, wl, green => (wl, green)
  | (g, r) :: rest, i, wl, green =>
    if r = 'G' then
      filterGreens rest (i + 1) (wl.filter (fun w => w.getD i '?' == g))
        (green ++ [g])
    else filterGreens rest (i + 1) wl green

/-- Yellow filter pass: for every position marked `'Y'` drop the words with
that letter at that position, then drop the words with fewer occurrences of
the letter than `1 + green.count(g) + yellow.count(g)`, and append the
letter to `yellow`. -/
def filterYellows : List (Char × Char) → Nat → List Word → List Char →
    List Char → List Word × List Char
  | [], _, wl, _, yellow => (wl, yellow)
  | (g, r) :: rest, i, wl, green, yellow =>
    if r = 'Y' then
      filterYellows rest (i + 1)
        (((wl.filter (fun w => !(w.getD i '?' == g))).filter
          (fun w => decide (1 + green.count g + yellow.count g ≤ w.count g))))
        green (yellow ++ [g])
    else filterYellows rest (i + 1) wl green yellow

/-- Grey filter pass: for every position marked `'X'` drop the words with
that letter at that position, then drop the words whose count of the letter
differs from `green.count(g) + yellow.count(g)`. -/
def filterGreys : List (Char × Char) → Nat → List Word → List Char →
    List Char → List Word
  | [], _, wl, _, _ => wl
  | (g, r) :: rest, i, wl, green, yellow =>
    if r = 'X' then
      filterGreys rest (i + 1)
        ((wl.filter (fun w => !(w.getD i '?' == g))).filter
          (fun w => w.count g == green.count g + yellow.count g))
        green yellow
    else filterGreys rest (i + 1) wl green yellow

/-- `WordleSolver.filter_wordlist(guess, result)` as a pure transformation
of the current candidate list `wl`. -/
def filter_wordlist (wl : List Word) (guess result : List Char) : List Word :=
  let p1 := filterGreens (guess.zip result) 0 wl []
  let p2 := filterYellows (guess.zip result) 0 p1.1 p1.2 []
  filterGreys (guess.zip result) 0 p2.1 p1.2 p2.2

/-! ## Penalty model (src/main.py lines 18-51) -/

/-- The fixed base penalties `[3, 2, 1.5, 1.25, 1.1, 1]` indexed by
frequency tier 1..6. -/
def basePenalties : List ℚ := [3, 2, 3/2, 5/4, 11/10, 1]

/-- The rescaling `(self.highest_penalty-1)*(p-1)/2 + 1` applied to each
base penalty. -/
def rescale (hp p : ℚ) : ℚ := (hp - 1) * (p - 1) / 2 + 1

/-- The adjusted penalty list `[(self.highest_penalty-1)*(p-1)/2 + 1 for p
in penalties]`. -/
def scaledPenalties (hp : ℚ) : List ℚ := basePenalties.map (rescale hp)

/-- Python list indexing `l[i]` with an `int` index: valid for
`-len(l) <= i < len(l)`, where a negative `i` addresses `l[len(l)+i]`;
anything else raises `IndexError`, modelled as `none`. -/
def pyIndex (l : List ℚ) (i : Int) : Option ℚ :=
  if 0 ≤ i then
    if i < l.length then some (l.getD i.toNat 0) else none
  else
    if -i ≤ l.length then some (l.getD (l.length - (-i).toNat) 0) else none

/-- The loop `for w,f in zip(self.wordlist, self.freqs): d[w] =
penalties[int(f)-1]` building the penalty dict; the first out-of-range
index raises (`none`). -/
def buildDict (hp : ℚ) : List (Word × Int) → Option (List (Word × ℚ))
  | [] => some []
  | (w, f) :: rest =>
    match pyIndex (scaledPenalties hp) (f - 1) with
    | none => none
    | some p =>
      match buildDict hp rest with
      | none => none
      | some d => some ((w, p) :: d)

/-- `WordleSolver.get_freq_penalty_dict` as run by the constructor on the
zipped `(word, frequency-tier)` input; `none` models the constructor
failing with an `IndexError`. -/
def get_freq_penalty_dict (hp : ℚ) (wordlist : List Word) (freqs : List Int) :
    Option (List (Word × ℚ)) :=
  buildDict hp (wordlist.zip freqs)

/-! ## `get_best_guess` (src/main.py lines 104-163) -/

/-- The guess pool of the full search: `self.wordlist_filtered` in
hardmode, else the full `self.wordlist`. -/
def simPool (wordlist filtered : List Word) (hardmode : Bool) : List Word :=
  if hardmode then filtered else wordlist

/-- `compares_per_word = min(self.max_comparisons//len(wordlist),
len(wordlist))`. -/
def comparesPerWord (max_comparisons : Nat) (pool : List Word) : Nat :=
  min (max_comparisons / pool.length) pool.length

/-- The simulation sample: the whole candidate list when
`compares_per_word >= len(self.wordlist_filtered)`, else
`random.sample(self.wordlist_filtered, compares_per_word)` (the sampler is
a parameter of the model). -/
def simSample (filtered : List Word) (cpw : Nat)
    (sampler : List Word → Nat → List Word) : List Word :=
  if filtered.length ≤ cpw then filtered else sampler filtered cpw

/-- Number of `check_word` invocations made by the nested simulation loop:
one per `(guess, target)` pair of `pool × sublist`. -/
def numComparisons (pool sublist : List Word) : Nat :=
  pool.length * sublist.length

/-- The feedback codes produced by guessing `g` against every target of the
sample (the inner loop of the search). -/
def resultsFor (sublist : List Word) (g : Word) : List (List Char) :=
  sublist.map (fun t => check_word t g)

/-- `max([c for c in result_dict[w].values()])`: the size of the largest
bucket of identical feedback codes for guess `g` over the sample. -/
def maxBucket (sublist : List Word) (g : Word) : Nat :=
  ((resultsFor sublist g).map (fun r => (resultsFor sublist g).count r)).foldr
    max 0

/-- One step of the final minimisation loop: keep the first word whose
penalised worst-case bucket is strictly below the running minimum
(initialised to `999999999999`). -/
def bestStep (pen : Word → ℚ) (sublist : List Word)
    (acc : Option Word × ℚ) (w : Word) : Option Word × ℚ :=
  if (maxBucket sublist w : ℚ) * pen w < acc.2
  then (some w, (maxBucket sublist w : ℚ) * pen w) else acc

/-- The full-search tail of `get_best_guess`: build `result_dict` over the
pool (its keys are the pool words, in order, provided the sample is
non-empty) and return the key with the smallest penalised worst-case
bucket, first minimum winning.  The model assumes a duplicate-free pool,
as the spec requires of the lexicon. -/
def selectFull (pen : Word → ℚ) (pool sublist : List Word) : Option Word :=
  if sublist.isEmpty then none
  else (pool.foldl (bestStep pen sublist) (none, 999999999999)).1

/-- The general search of `get_best_guess` (pool choice, sample choice,
minimax loop). -/
def fullSearch (wordlist filtered : List Word) (pen : Word → ℚ)
    (hardmode : Bool) (max_comparisons : Nat)
    (sampler : List Word → Nat → List Word) : Option Word :=
  let pool := simPool wordlist filtered hardmode
  let sublist := simSample filtered (comparesPerWord max_comparisons pool)
    sampler
  selectFull pen pool sublist

/-- `pens = [(w, self.penalty_dict[w]) for w in self.wordlist_filtered]`
followed by the stable `pens.sort(key=lambda x: x[1])`, modelled by the
(stable) insertion sort. -/
def sortedPens (filtered : List Word) (pen : Word → ℚ) : List (Word × ℚ) :=
  (filtered.map (fun w => (w, pen w))).insertionSort (fun a b => a.2 ≤ b.2)

/-- `WordleSolver.get_best_guess`, as a function of the state the method
reads: `self.wordlist`, `self.wordlist_filtered`, `self.penalty_dict`
(as the lookup function `pen`), `self.hardmode`, `self.highest_penalty`,
`self.max_comparisons`, plus the random sampler.  `none` models returning
Python `None`. -/
def get_best_guess (wordlist filtered : List Word) (pen : Word → ℚ)
    (hardmode : Bool) (highest_penalty : ℚ) (max_comparisons : Nat)
    (sampler : List Word → Nat → List Word) : Option Word :=
  if filtered = [] then none
  else if filtered.length = 1 then some (filtered.getD 0 [])
  else if filtered.length = 2 then
    some (if pen (filtered.getD 1 []) < pen (filtered.getD 0 [])
          then filtered.getD 1 [] else filtered.getD 0 [])
  else if filtered.length ≤ 6 then
    if ((sortedPens filtered pen).getD 0 ([], 0)).2 ≤
        ((sortedPens filtered pen).getD 1 ([], 0)).2 -
        (highest_penalty - 1) / 4
    then some ((sortedPens filtered pen).getD 0 ([], 0)).1
    else fullSearch wordlist filtered pen hardmode max_comparisons sampler
  else fullSearch wordlist filtered pen hardmode max_comparisons sampler

/-! ## Counting helpers

`countGp / countYp / countGYp pr c` count, over a list of
(guess letter, feedback symbol) pairs, the positions whose guess letter is
`c` and whose symbol is `'G'` / `'Y'` / one of `'G','Y'`. -/

/-- Positions with guess letter `c` marked `'G'`. -/
def countGp (pr : List (Char × Char)) (c : Char) : Nat :=
  pr.countP (fun p => p.1 == c && p.2 == 'G')

/-- Positions with guess letter `c` marked `'Y'`. -/
def countYp (pr : List (Char × Char)) (c : Char) : Nat :=
  pr.countP (fun p => p.1 == c && p.2 == 'Y')

/-- Positions with guess letter `c` marked `'G'` or `'Y'`. -/
def countGYp (pr : List (Char × Char)) (c : Char) : Nat :=
  pr.countP (fun p => p.1 == c && (p.2 == 'G' || p.2 == 'Y'))

/-! ## Basic lemmas -/

/-- On identical target and guess the green pass marks every position. -/
lemma greenPass_self (t : List Char) :
    greenPass t t =
      (List.replicate t.length 'G', List.replicate t.length '-',
       List.replicate t.length '-') := by
  induction t with
  | nil => simp [greenPass]
  | cons a l ih => simp [greenPass, ih, List.replicate_succ]

/-- The yellow pass does nothing when the working guess is all sentinels. -/
lemma yellowPass_replicate_dash (n : Nat) :
    ∀ (rs T : List Char), yellowPass (List.replicate n '-') rs T = (rs, T) := by
  induction n with
  | zero => intro rs T; simp [yellowPass]
  | succ m ih =>
    intro rs T
    cases rs with
    | nil => simp [List.replicate_succ, yellowPass]
    | cons r rs' => simp [List.replicate_succ, yellowPass, ih]

/-- Each filter pass only removes words. -/
lemma filterGreens_sublist :
    ∀ (pr : List (Char × Char)) (i : Nat) (wl : List Word) (green : List Char),
      ((filterGreens pr i wl green).1).Sublist wl := by
  intro pr
  induction pr with
  | nil => intro i wl green; simp [filterGreens]
  | cons p rest ih =>
    intro i wl green
    obtain ⟨g, r⟩ := p
    by_cases h : r = 'G'
    · simpa [filterGreens, h] using
        (ih (i + 1) (wl.filter (fun w => w.getD i '?' == g)) (green ++ [g])).trans
          (List.filter_sublist wl)
    · simpa [filterGreens, h] using ih (i + 1) wl green

/-- Each yellow filter step only removes words. -/
lemma filterYellows_sublist :
    ∀ (pr : List (Char × Char)) (i : Nat) (wl : List Word)
      (green yellow : List Char),
      ((filterYellows pr i wl green yellow).1).Sublist wl := by
  intro pr
  induction pr with
  | nil => intro i wl green yellow; simp [filterYellows]
  | cons p rest ih =>
    intro i wl green yellow
    obtain ⟨g, r⟩ := p
    by_cases h : r = 'Y'
    · simpa [filterYellows, h] using
        (ih (i + 1) _ green (yellow ++ [g])).trans
          ((List.filter_sublist _).trans (List.filter_sublist wl))
    · simpa [filterYellows, h] using ih (i + 1) wl green yellow

/-- Each grey filter step only removes words. -/
lemma filterGreys_sublist :
    ∀ (pr : List (Char × Char)) (i : Nat) (wl : List Word)
      (green yellow : List Char),
      (filterGreys pr i wl green yellow).Sublist wl := by
  intro pr
  induction pr with
  | nil => intro i wl green yellow; simp [filterGreys]
  | cons p rest ih =>
    intro i wl green yellow
    obtain ⟨g, r⟩ := p
    by_cases h : r = 'X'
    · simpa [filterGreys, h] using
        (ih (i + 1) _ green yellow).trans
          ((List.filter_sublist _).trans (List.filter_sublist wl))
    · simpa [filterGreys, h] using ih (i + 1) wl green yellow

/-- `filter_wordlist` never adds a word. -/
lemma filter_wordlist_sublist (wl : List Word) (guess result : List Char) :
    (filter_wordlist wl guess result).Sublist wl := by
  unfold filter_wordlist
  exact (filterGreys_sublist _ _ _ _ _).trans
    ((filterYellows_sublist _ _ _ _ _).trans (filterGreens_sublist _ _ _ _))

/-! ## Claim theorems (first block) -/

/-- C7: the feedback encoder on target `"LEVEL"` and guess `"EERIE"`
returns exactly `"YGXXX"`: a repeated guess letter is marked Present at
most as many times as unconsumed instances remain in the target, earlier
guess positions taking precedence. -/
theorem C7_repeated_letter_exhaustion :
    check_word ['L', 'E', 'V', 'E', 'L'] ['E', 'E', 'R', 'I', 'E'] =
      ['Y', 'G', 'X', 'X', 'X'] := by
  rfl

/-- C5: the feedback encoder applied to any 5-letter word against itself
yields the all-Hit code `"GGGGG"`. -/
theorem C5_self_match (w : List Char) (h : w.length = 5) :
    check_word w w = ['G', 'G', 'G', 'G', 'G'] := by
  show (yellowPass (greenPass w w).2.2 (greenPass w w).1 (greenPass w w).2.1).1 =
    ['G', 'G', 'G', 'G', 'G']
  rw [greenPass_self, h]
  rw [yellowPass_replicate_dash]
  rfl

/-- Witness for C5 at the concrete word `"crane"`. -/
theorem C5_self_match_witness :
    check_word ['c', 'r', 'a', 'n', 'e'] ['c', 'r', 'a', 'n', 'e'] =
      ['G', 'G', 'G', 'G', 'G'] :=
  C5_self_match ['c', 'r', 'a', 'n', 'e'] (by rfl)

/-- C9: on an empty candidate list the selector returns the explicit
"no guess available" value (`None`) instead of a word. -/
theorem C9_empty_candidates (wordlist : List Word) (pen : Word → ℚ)
    (hardmode : Bool) (hp : ℚ) (mc : Nat)
    (sampler : List Word → Nat → List Word) :
    get_best_guess wordlist [] pen hardmode hp mc sampler = none := by
  simp [get_best_guess]

/-- Witness for C9 at concrete inputs. -/
theorem C9_empty_candidates_witness :
    get_best_guess [['a', 'b', 'c', 'd', 'e']] [] (fun _ => 1) false (5/2)
      1000000 (fun l n => l.take n) = none :=
  C9_empty_candidates [['a', 'b', 'c', 'd', 'e']] (fun _ => 1) false (5/2)
    1000000 (fun l n => l.take n)

/-- C8: the filtered candidate list is a subset of the input list and its
size never exceeds the input's size: filtering only removes words. -/
theorem C8_filter_monotone (wl : List Word) (guess result : List Char) :
    (∀ x ∈ filter_wordlist wl guess result, x ∈ wl) ∧
      (filter_wordlist wl guess result).length ≤ wl.length :=
  ⟨fun _ hx => (filter_wordlist_sublist wl guess result).subset hx,
   (filter_wordlist_sublist wl guess result).length_le⟩

/-- Witness for C8 at concrete inputs: the surviving word of a concrete
filtering is in the input list, and the size shrank. -/
theorem C8_filter_monotone_witness :
    (['L', 'E', 'V', 'E', 'L'] ∈
        filter_wordlist [['L', 'E', 'V', 'E', 'L'], ['B', 'E', 'V', 'E', 'L']]
          ['E', 'E', 'R', 'I', 'E'] ['Y', 'G', 'X', 'X', 'X'] →
      ['L', 'E', 'V', 'E', 'L'] ∈
        [['L', 'E', 'V', 'E', 'L'], ['B', 'E', 'V', 'E', 'L']]) ∧
    (filter_wordlist [['L', 'E', 'V', 'E', 'L'], ['B', 'E', 'V', 'E', 'L']]
        ['E', 'E', 'R', 'I', 'E'] ['Y', 'G', 'X', 'X', 'X']).length ≤ 2 :=
  ⟨fun hx => (C8_filter_monotone _ _ _).1 _ hx, (C8_filter_monotone _ _ _).2⟩

/-! ## Penalty model lemmas and claims C3, C4, C2 -/

lemma length_scaledPenalties (hp : ℚ) : (scaledPenalties hp).length = 6 := by
  simp [scaledPenalties, basePenalties]

/-- Indexing the six scaled penalties with `int(f)-1` raises exactly when
the tier `f` is below `-5` or above `6` (Python negative indexing reads
from the end for `-6 <= f-1 <= -1`). -/
lemma pyIndex_scaled_none (hp : ℚ) (f : Int) :
    pyIndex (scaledPenalties hp) (f - 1) = none ↔ f < -5 ∨ 6 < f := by
  simp only [pyIndex, length_scaledPenalties]
  split_ifs with h1 h2 h3 <;> simp <;> omega

lemma buildDict_none (hp : ℚ) :
    ∀ l : List (Word × Int), buildDict hp l = none ↔
      ∃ p ∈ l, pyIndex (scaledPenalties hp) (p.2 - 1) = none := by
  intro l
  induction l with
  | nil => simp [buildDict]
  | cons q rest ih =>
    obtain ⟨w, f⟩ := q
    rcases hpi : pyIndex (scaledPenalties hp) (f - 1) with _ | p
    · simp [buildDict, hpi]
    · rcases hbd : buildDict hp rest with _ | d <;>
        simp [buildDict, hpi, hbd] at ih ⊢ <;> simpa using ih

lemma buildDict_mem (hp : ℚ) :
    ∀ (l : List (Word × Int)) (d : List (Word × ℚ)), buildDict hp l = some d →
      ∀ (w : Word) (f : Int), (w, f) ∈ l →
      ∃ p, pyIndex (scaledPenalties hp) (f - 1) = some p ∧ (w, p) ∈ d := by
  intro l
  induction l with
  | nil => intro d _ w f hm; simp at hm
  | cons q rest ih =>
    intro d hd w f hm
    obtain ⟨w', f'⟩ := q
    rcases hpi : pyIndex (scaledPenalties hp) (f' - 1) with _ | p <;>
      rcases hbd : buildDict hp rest with _ | d' <;>
        simp [buildDict, hpi, hbd] at hd
    subst hd
    rcases List.mem_cons.mp hm with h | h
    · obtain ⟨rfl, rfl⟩ := Prod.mk.inj h
      exact ⟨p, hpi, List.mem_cons_self _ _⟩
    · obtain ⟨p', hp', hmem⟩ := ih d' hbd w f h
      exact ⟨p', hp', List.mem_cons_of_mem _ hmem⟩

/-- C3 counterexample: construction does **not** fail on malformed
lexicons.  A tier of `0` (outside 1..6) is silently accepted — Python's
negative indexing turns `penalties[-1]` into the last entry, penalty `1` —
and a 4-letter word with a valid tier is accepted as well. -/
theorem C3_counterexample :
    get_freq_penalty_dict (5/2) [['s', 't', 'a', 'r', 'e']] [0] =
        some [(['s', 't', 'a', 'r', 'e'], 1)] ∧
      get_freq_penalty_dict (5/2) [['a', 'b', 'c', 'd']] [1] =
        some [(['a', 'b', 'c', 'd'], 5/2)] := by
  have hs : scaledPenalties (5/2) = [5/2, 7/4, 11/8, 19/16, 43/40, 1] := by
    norm_num [scaledPenalties, basePenalties, rescale]
  constructor <;>
    simp [get_freq_penalty_dict, buildDict, pyIndex, hs]

/-- C3 (amended): construction fails, with an uncaught index error, exactly
when some zipped lexicon entry carries a tier below `-5` or above `6`;
tiers `-5..0` are silently accepted through Python negative indexing, and
the word length is never validated. -/
theorem C3_construction_failure (hp : ℚ) (wordlist : List Word)
    (freqs : List Int) :
    get_freq_penalty_dict hp wordlist freqs = none ↔
      ∃ p ∈ wordlist.zip freqs, p.2 < -5 ∨ 6 < p.2 := by
  rw [get_freq_penalty_dict, buildDict_none]
  exact exists_congr fun p =>
    and_congr_right fun _ => pyIndex_scaled_none hp p.2

/-- Witness for C3 (amended): a tier of `7` does make construction fail. -/
theorem C3_construction_failure_witness :
    get_freq_penalty_dict (5/2) [['s', 't', 'a', 'r', 'e']] [7] = none :=
  (C3_construction_failure (5/2) [['s', 't', 'a', 'r', 'e']] [7]).mpr
    ⟨(['s', 't', 'a', 'r', 'e'], 7), by simp, by norm_num⟩

/-- C4: for any `highest_penalty ≥ 1` the rescaled penalty table is
non-increasing as the frequency tier increases from 1 to 6 (the list
`scaledPenalties` is indexed by tier), and every word of tier 6 receives
penalty exactly 1 in the built dict. -/
theorem C4_penalty_monotone (hp : ℚ) (h : 1 ≤ hp) :
    List.Chain' (fun a b => b ≤ a) (scaledPenalties hp) ∧
      (scaledPenalties hp).getD 5 0 = 1 ∧
      ∀ (wordlist : List Word) (freqs : List Int) (d : List (Word × ℚ))
        (w : Word),
        get_freq_penalty_dict hp wordlist freqs = some d →
        (w, (6 : Int)) ∈ wordlist.zip freqs → (w, (1 : ℚ)) ∈ d := by
  have h' : 0 ≤ hp - 1 := by linarith
  have h1 : (scaledPenalties hp).getD 5 0 = 1 := by
    norm_num [scaledPenalties, basePenalties, rescale]
  refine ⟨?_, h1, ?_⟩
  · simp only [scaledPenalties, basePenalties, List.map_cons, List.map_nil,
      List.chain'_cons, List.chain'_singleton, and_true, rescale]
    refine ⟨by linarith, by linarith, by linarith, by linarith, by linarith⟩
  · intro wordlist freqs d w hd hm
    obtain ⟨p, hpi, hmem⟩ := buildDict_mem hp _ d hd w 6 hm
    have h2 : pyIndex (scaledPenalties hp) (6 - 1) = some 1 := by
      simp [pyIndex, scaledPenalties, basePenalties, rescale]
    rw [h2] at hpi
    obtain rfl := Option.some.inj hpi
    exact hmem

/-- Witness for C4 at `highest_penalty = 5/2` (the constructor's value). -/
theorem C4_penalty_monotone_witness :
    List.Chain' (fun a b => b ≤ a) (scaledPenalties (5/2)) ∧
      (scaledPenalties (5/2)).getD 5 0 = 1 ∧
      ∀ (wordlist : List Word) (freqs : List Int) (d : List (Word × ℚ))
        (w : Word),
        get_freq_penalty_dict (5/2) wordlist freqs = some d →
        (w, (6 : Int)) ∈ wordlist.zip freqs → (w, (1 : ℚ)) ∈ d :=
  C4_penalty_monotone (5/2) (by norm_num)

/-- C2: the simulation sample never exceeds
`min(max_comparisons / |pool|, |candidates|)`, so the nested loop performs
at most `|pool| * min(max_comparisons / |pool|, |candidates|)` feedback
encodings. -/
theorem C2_budget (wordlist filtered : List Word) (hardmode : Bool)
    (mc : Nat) (sampler : List Word → Nat → List Word)
    (hs : ∀ l n, n ≤ l.length → (sampler l n).length = n) :
    (simSample filtered
        (comparesPerWord mc (simPool wordlist filtered hardmode))
        sampler).length ≤
      min (mc / (simPool wordlist filtered hardmode).length)
        filtered.length ∧
    numComparisons (simPool wordlist filtered hardmode)
        (simSample filtered
          (comparesPerWord mc (simPool wordlist filtered hardmode)) sampler) ≤
      (simPool wordlist filtered hardmode).length *
        min (mc / (simPool wordlist filtered hardmode).length)
          filtered.length := by
  set pool := simPool wordlist filtered hardmode with hpool
  set cpw := comparesPerWord mc pool with hcpw
  have hbound : (simSample filtered cpw sampler).length ≤
      min (mc / pool.length) filtered.length := by
    unfold simSample
    split_ifs with hle
    · exact le_min (hle.trans (min_le_left _ _)) le_rfl
    · push_neg at hle
      rw [hs filtered cpw hle.le]
      exact le_min (min_le_left _ _) hle.le
  exact ⟨hbound, Nat.mul_le_mul_left _ hbound⟩

/-- Witness for C2 at concrete inputs, with the `take`-prefix sampler
(which satisfies the `random.sample` size contract). -/
theorem C2_budget_witness :
    (simSample [['c', 'r', 'a', 'n', 'e'], ['s', 'l', 'a', 't', 'e']]
        (comparesPerWord 1
          (simPool [['c', 'r', 'a', 'n', 'e'], ['s', 'l', 'a', 't', 'e']]
            [['c', 'r', 'a', 'n', 'e'], ['s', 'l', 'a', 't', 'e']] false))
        (fun l n => l.take n)).length ≤
      min (1 / (simPool [['c', 'r', 'a', 'n', 'e'], ['s', 'l', 'a', 't', 'e']]
            [['c', 'r', 'a', 'n', 'e'], ['s', 'l', 'a', 't', 'e']]
            false).length) 2 ∧
    numComparisons
        (simPool [['c', 'r', 'a', 'n', 'e'], ['s', 'l', 'a', 't', 'e']]
          [['c', 'r', 'a', 'n', 'e'], ['s', 'l', 'a', 't', 'e']] false)
        (simSample [['c', 'r', 'a', 'n', 'e'], ['s', 'l', 'a', 't', 'e']]
          (comparesPerWord 1
            (simPool [['c', 'r', 'a', 'n', 'e'], ['s', 'l', 'a', 't', 'e']]
              [['c', 'r', 'a', 'n', 'e'], ['s', 'l', 'a', 't', 'e']] false))
          (fun l n => l.take n)) ≤
      (simPool [['c', 'r', 'a', 'n', 'e'], ['s', 'l', 'a', 't', 'e']]
          [['c', 'r', 'a', 'n', 'e'], ['s', 'l', 'a', 't', 'e']]
          false).length *
        min (1 / (simPool [['c', 'r', 'a', 'n', 'e'], ['s', 'l', 'a', 't', 'e']]
            [['c', 'r', 'a', 'n', 'e'], ['s', 'l', 'a', 't', 'e']]
            false).length) 2 := by
  have := C2_budget [['c', 'r', 'a', 'n', 'e'], ['s', 'l', 'a', 't', 'e']]
    [['c', 'r', 'a', 'n', 'e'], ['s', 'l', 'a', 't', 'e']] false 1
    (fun l n => l.take n)
    (fun l n hn => by simpa [List.length_take] using Nat.min_eq_left hn)
  simpa using this

/-! ## Generic list helpers for the soundness proofs -/

lemma forall₂_getD {α β : Type} {P : α → β → Prop} :
    ∀ {l₁ : List α} {l₂ : List β}, List.Forall₂ P l₁ l₂ →
      ∀ (k : Nat) (d₁ : α) (d₂ : β), k < l₁.length →
        P (l₁.getD k d₁) (l₂.getD k d₂) := by
  intro l₁ l₂ h
  induction h with
  | nil => intro k d₁ d₂ hk; simp at hk
  | cons hab htail ih =>
    intro k d₁ d₂ hk
    cases k with
    | zero => simpa using hab
    | succ m => simpa using ih m d₁ d₂ (by simpa using hk)

lemma split_getD {α : Type} :
    ∀ (p : List α) (x : α) (s : List α) (d : α),
      (p ++ x :: s).getD p.length d = x := by
  intro p
  induction p with
  | nil => intro x s d; rfl
  | cons a q ih => intro x s d; simpa using ih x s d

lemma zip_getD {α β : Type} :
    ∀ (l₁ : List α) (l₂ : List β) (k : Nat) (d₁ : α) (d₂ : β),
      k < l₁.length → k < l₂.length →
      (l₁.zip l₂).getD k (d₁, d₂) = (l₁.getD k d₁, l₂.getD k d₂) := by
  intro l₁
  induction l₁ with
  | nil => intro l₂ k d₁ d₂ h₁ h₂; simp at h₁
  | cons a q ih =>
    intro l₂ k d₁ d₂ h₁ h₂
    cases l₂ with
    | nil => simp at h₂
    | cons b r =>
      cases k with
      | zero => rfl
      | succ m =>
        simpa using ih r m d₁ d₂ (by simpa using h₁) (by simpa using h₂)

/-- Consuming the first occurrence of `c` (writing the sentinel over it)
removes exactly one `c`. -/
lemma count_set_indexOf_self (T : List Char) (c : Char) (hc : c ∈ T)
    (hne : c ≠ '-') :
    (T.set (List.indexOf c T) '-').count c + 1 = T.count c := by
  have hlt : List.indexOf c T < T.length := List.indexOf_lt_length.mpr hc
  have hpos : 0 < T.count c := List.count_pos_iff.mpr hc
  rw [List.count_set _ _ _ _ hlt, List.getElem_indexOf hlt]
  simp [hne.symm]
  omega

/-- Consuming the first occurrence of `c` does not change the number of
occurrences of a different letter `L ≠ '-'`. -/
lemma count_set_indexOf_other (T : List Char) (c L : Char) (hc : c ∈ T)
    (hcL : c ≠ L) (hL : L ≠ '-') :
    (T.set (List.indexOf c T) '-').count L = T.count L := by
  have hlt : List.indexOf c T < T.length := List.indexOf_lt_length.mpr hc
  rw [List.count_set _ _ _ _ hlt, List.getElem_indexOf hlt]
  simp [hcL, hL.symm]

lemma not_mem_set_dash (T : List Char) (j : Nat) (L : Char) (hL : L ≠ '-')
    (h : L ∉ T) : L ∉ T.set j '-' := by
  intro hm
  rcases List.mem_or_eq_of_mem_set hm with h' | h'
  · exact h h'
  · exact hL h'

/-! ## Green pass characterisation -/

lemma greenPass_eq_zipWith :
    ∀ t g : List Char,
      greenPass t g =
        (List.zipWith (fun a b => if a = b then 'G' else 'X') t g,
         List.zipWith (fun a b => if a = b then '-' else a) t g,
         List.zipWith (fun a b => if a = b then '-' else b) t g) := by
  intro t
  induction t with
  | nil => intro g; cases g <;> simp [greenPass]
  | cons a q ih =>
    intro g
    cases g with
    | nil => simp [greenPass]
    | cons b r =>
      by_cases h : a = b <;> simp [greenPass, h, ih r]

/-- The preliminary result and the working guess mark exactly the same
positions (as `'G'` resp. `'-'`), provided the guess has no sentinel. -/
lemma greenPass_G_iff_dash :
    ∀ t g : List Char, '-' ∉ g →
      List.Forall₂ (fun a b => a = 'G' ↔ b = '-')
        (List.zipWith (fun a b => if a = b then 'G' else 'X') t g)
        (List.zipWith (fun a b => if a = b then '-' else b) t g) := by
  intro t
  induction t with
  | nil => intro g _; simp
  | cons a q ih =>
    intro g hg
    cases g with
    | nil => simp
    | cons b r =>
      have hb : b ≠ '-' := fun hb => hg (hb ▸ List.mem_cons_self b r)
      have hr : '-' ∉ r := fun hm => hg (List.mem_cons_of_mem b hm)
      by_cases h : a = b <;>
        simp [h, List.forall₂_cons, ih r hr, hb, Ne.symm hb]

/-- The preliminary result contains no `'Y'`. -/
lemma greenPass_no_Y :
    ∀ t g : List Char, ∀ a ∈ List.zipWith
      (fun a b => if a = b then 'G' else 'X') t g, a ≠ 'Y' := by
  intro t
  induction t with
  | nil => intro g a ha; simp at ha
  | cons x q ih =>
    intro g a ha
    cases g with
    | nil => simp at ha
    | cons b r =>
      rcases List.mem_cons.mp (by simpa using ha) with h | h
      · by_cases hxb : x = b <;> simp [hxb] at h <;> simp [h]
      · exact ih r a h

/-- The working guess letter, where it is not the sentinel, is the original
guess letter. -/
lemma greenPass_guess_orig :
    ∀ t g : List Char, t.length = g.length →
      List.Forall₂ (fun b c => b ≠ '-' → b = c)
        (List.zipWith (fun a b => if a = b then '-' else b) t g) g := by
  intro t
  induction t with
  | nil => intro g hlen; rw [List.eq_nil_of_length_eq_zero hlen.symm]; simp
  | cons a q ih =>
    intro g hlen
    cases g with
    | nil => simp at hlen
    | cons b r =>
      by_cases h : a = b <;>
        simp [h, List.forall₂_cons, ih r (by simpa using hlen)]

/-- Green accounting: for any letter `L ≠ '-'`, the `'G'`-marked positions
with guess letter `L` plus the remaining occurrences of `L` in the working
target add up to the occurrences of `L` in the original target. -/
lemma greenPass_count (L : Char) (hL : L ≠ '-') :
    ∀ t g : List Char, t.length = g.length →
      countGp (g.zip (List.zipWith (fun a b => if a = b then 'G' else 'X') t g)) L
        + (List.zipWith (fun a b => if a = b then '-' else a) t g).count L
        = t.count L := by
  intro t
  induction t with
  | nil => intro g hlen; simp [countGp]
  | cons a q ih =>
    intro g hlen
    cases g with
    | nil => simp at hlen
    | cons b r =>
      have htail := ih r (by simpa using hlen)
      by_cases h : a = b
      · subst h
        by_cases haL : a = L
        · subst haL
          simp [countGp, List.countP_cons, List.count_cons, hL.symm] at htail ⊢
          omega
        · simp [countGp, List.countP_cons, List.count_cons, haL,
            Ne.symm haL, hL.symm] at htail ⊢
          omega
      · by_cases haL : a = L
        · subst haL
          simp [countGp, List.countP_cons, List.count_cons, h] at htail ⊢
          omega
        · simp [countGp, List.countP_cons, List.count_cons, h, haL,
            Ne.symm haL] at htail ⊢
          omega


/-! ## Yellow pass lemmas

Throughout, `rs` is the preliminary result and `gq` the working guess
produced by the green pass, `g` is the original guess, and `T` the working
target.  The standing pointwise facts are: `rs` marks `'G'` exactly where
`gq` holds the sentinel, `rs` holds no `'Y'`, and a non-sentinel working
guess letter equals the original guess letter. -/

/-- Unfolding of the yellow pass at a firing position. -/
lemma yellowPass_cons_pos {b : Char} {l₂ : List Char} {a : Char}
    {l₁ : List Char} {T : List Char} (hf : b ≠ '-' ∧ b ∈ T) :
    yellowPass (b :: l₂) (a :: l₁) T =
      ('Y' :: (yellowPass l₂ l₁ (T.set (List.indexOf b T) '-')).1,
       (yellowPass l₂ l₁ (T.set (List.indexOf b T) '-')).2) := by
  simp [yellowPass, hf]

/-- Unfolding of the yellow pass at a non-firing position. -/
lemma yellowPass_cons_neg {b : Char} {l₂ : List Char} {a : Char}
    {l₁ : List Char} {T : List Char} (hf : ¬(b ≠ '-' ∧ b ∈ T)) :
    yellowPass (b :: l₂) (a :: l₁) T =
      (a :: (yellowPass l₂ l₁ T).1, (yellowPass l₂ l₁ T).2) := by
  simp only [yellowPass, if_neg hf]

/-- A position of the final result is `'G'` exactly when the preliminary
result already was. -/
lemma yellowPass_G_iff :
    ∀ {rs gq : List Char},
      List.Forall₂ (fun a b => a = 'G' ↔ b = '-') rs gq →
      ∀ T : List Char,
        List.Forall₂ (fun a a' => a' = 'G' ↔ a = 'G') rs
          (yellowPass gq rs T).1 := by
  intro rs gq h
  induction h with
  | nil => intro T; simp [yellowPass]
  | @cons a b l₁ l₂ hab htail ih =>
    intro T
    by_cases hf : b ≠ '-' ∧ b ∈ T
    · have ha : a ≠ 'G' := fun hG => hf.1 (hab.mp hG)
      rw [yellowPass_cons_pos hf]
      exact List.Forall₂.cons (iff_of_false (by decide) ha) (ih _)
    · rw [yellowPass_cons_neg hf]
      exact List.Forall₂.cons Iff.rfl (ih T)

/-- The yellow pass does not change which positions count as `'G'` with a
given guess letter. -/
lemma yellowPass_countGp :
    ∀ {rs gq : List Char},
      List.Forall₂ (fun a b => a = 'G' ↔ b = '-') rs gq →
      ∀ (T g : List Char) (c : Char),
        countGp (g.zip (yellowPass gq rs T).1) c = countGp (g.zip rs) c := by
  intro rs gq h
  induction h with
  | nil => intro T g c; simp [yellowPass]
  | @cons a b l₁ l₂ hab htail ih =>
    intro T g c
    cases g with
    | nil => simp [countGp]
    | cons c₀ g₂ =>
      by_cases hf : b ≠ '-' ∧ b ∈ T
      · have ha : a ≠ 'G' := fun hG => hf.1 (hab.mp hG)
        rw [yellowPass_cons_pos hf]
        simp only [countGp, List.zip_cons_cons, List.countP_cons]
        have h2 := ih (T.set (List.indexOf b T) '-') g₂ c
        simp only [countGp] at h2
        simp [ha, h2]
      · rw [yellowPass_cons_neg hf]
        simp only [countGp, List.zip_cons_cons, List.countP_cons]
        have h2 := ih T g₂ c
        simp only [countGp] at h2
        simp [h2]

/-- Once a letter is exhausted in the working target, no later position is
marked `'Y'` for it. -/
lemma yellowPass_countYp_zero :
    ∀ {gq g : List Char},
      List.Forall₂ (fun b c' => b ≠ '-' → b = c') gq g →
      ∀ {rs : List Char}, (∀ a ∈ rs, a ≠ 'Y') →
      ∀ (T : List Char) (c : Char), c ∉ T → c ≠ '-' →
        countYp (g.zip (yellowPass gq rs T).1) c = 0 := by
  intro gq g h
  induction h with
  | nil => intro rs _ T c _ _; simp [yellowPass, countYp]
  | @cons b c₀ gq₂ g₂ hbc htail ih =>
    intro rs hNoY T c hcT hcd
    cases rs with
    | nil => simp [yellowPass, countYp]
    | cons a rs₂ =>
      have hNoY₂ : ∀ x ∈ rs₂, x ≠ 'Y' :=
        fun x hx => hNoY x (List.mem_cons_of_mem a hx)
      by_cases hf : b ≠ '-' ∧ b ∈ T
      · have hb : b = c₀ := hbc hf.1
        have hbne : c₀ ≠ c := fun hcc => hcT (hcc ▸ hb ▸ hf.2)
        have hT' : c ∉ T.set (List.indexOf b T) '-' :=
          not_mem_set_dash T _ c hcd hcT
        rw [yellowPass_cons_pos hf]
        simp only [countYp, List.zip_cons_cons, List.countP_cons]
        have h2 := ih hNoY₂ (T.set (List.indexOf b T) '-') c hT' hcd
        simp only [countYp] at h2
        simp [hbne, h2]
      · have ha : a ≠ 'Y' := hNoY a (List.mem_cons_self a rs₂)
        rw [yellowPass_cons_neg hf]
        simp only [countYp, List.zip_cons_cons, List.countP_cons]
        have h2 := ih hNoY₂ T c hcT hcd
        simp only [countYp] at h2
        simp [ha, h2]

/-- A split of a list exhibits a member. -/
lemma mem_of_split {α : Type} {l p s : List α} {x : α}
    (h : l = p ++ x :: s) : x ∈ l := by
  rw [h]; simp

/-- At every position finally marked `'Y'`, the working target still held
one more occurrence of the guess letter than had been consumed by the
earlier `'Y'` positions of the same letter. -/
lemma yellowPass_Y_lower :
    ∀ {gq g : List Char},
      List.Forall₂ (fun b c' => b ≠ '-' → b = c') gq g →
      ∀ {rs : List Char},
        List.Forall₂ (fun a b => a = 'G' ↔ b = '-') rs gq →
        (∀ a ∈ rs, a ≠ 'Y') → '-' ∉ g →
      ∀ (T : List Char) (p : List (Char × Char)) (c : Char)
        (s : List (Char × Char)),
        g.zip (yellowPass gq rs T).1 = p ++ (c, 'Y') :: s →
        1 + countYp p c ≤ T.count c := by
  intro gq g h
  induction h with
  | nil =>
    intro rs _ _ _ T p c s hsplit
    cases p <;> simp [yellowPass] at hsplit
  | @cons b c₀ gq₂ g₂ hbc htail ih =>
    intro rs hGdash hNoY hdash T p c s hsplit
    cases rs with
    | nil => cases p <;> simp [yellowPass] at hsplit
    | cons a rs₂ =>
      obtain ⟨hab, hGtail⟩ := List.forall₂_cons.mp hGdash
      have hNoY₂ : ∀ x ∈ rs₂, x ≠ 'Y' :=
        fun x hx => hNoY x (List.mem_cons_of_mem a hx)
      have hdash₂ : '-' ∉ g₂ := fun hm => hdash (List.mem_cons_of_mem c₀ hm)
      by_cases hf : b ≠ '-' ∧ b ∈ T
      · have hb : b = c₀ := hbc hf.1
        rw [yellowPass_cons_pos hf] at hsplit
        cases p with
        | nil =>
          simp only [List.zip_cons_cons, List.nil_append, List.cons.injEq,
            Prod.mk.injEq, and_true] at hsplit
          obtain ⟨hcc, -⟩ := hsplit
          have hcT : c ∈ T := by rw [← hcc, ← hb]; exact hf.2
          have := List.count_pos_iff.mpr hcT
          simp only [countYp, List.countP_nil]
          omega
        | cons q p₂ =>
          simp only [List.zip_cons_cons, List.cons_append,
            List.cons.injEq] at hsplit
          obtain ⟨hq, hsplit₂⟩ := hsplit
          have hIH := ih hGtail hNoY₂ hdash₂ _ p₂ c s hsplit₂
          by_cases hcc : c₀ = c
          · have hcount := count_set_indexOf_self T b hf.2 hf.1
            have hbcc : b = c := hb.trans hcc
            rw [hbcc] at hcount hIH
            rw [← hq, hcc]
            simp only [countYp, List.countP_cons, beq_self_eq_true,
              Bool.and_self, if_true]
            simp only [countYp] at hIH
            omega
          · have hcg : c ∈ g₂ :=
              (List.of_mem_zip (mem_of_split hsplit₂)).1
            have hcd : c ≠ '-' := fun hcdash => hdash₂ (hcdash ▸ hcg)
            have hbc' : b ≠ c := fun hbeq => hcc (hb ▸ hbeq)
            have hother := count_set_indexOf_other T b c hf.2 hbc' hcd
            rw [hother] at hIH
            rw [← hq]
            simp only [countYp, List.countP_cons]
            simp only [countYp] at hIH
            have hcond : ((c₀ == c) && ('Y' == 'Y')) = false := by
              simp [hcc]
            rw [hcond]
            simpa using hIH
      · have ha : a ≠ 'Y' := hNoY a (List.mem_cons_self a rs₂)
        rw [yellowPass_cons_neg hf] at hsplit
        cases p with
        | nil =>
          simp only [List.zip_cons_cons, List.nil_append, List.cons.injEq,
            Prod.mk.injEq] at hsplit
          exact absurd hsplit.1.2 ha
        | cons q p₂ =>
          simp only [List.zip_cons_cons, List.cons_append,
            List.cons.injEq] at hsplit
          obtain ⟨hq, hsplit₂⟩ := hsplit
          have hIH := ih hGtail hNoY₂ hdash₂ T p₂ c s hsplit₂
          rw [← hq]
          simp only [countYp, List.countP_cons]
          have hcond : ((c₀ == c) && (a == 'Y')) = false := by
            simp [ha]
          rw [hcond]
          simpa [countYp] using hIH


/-- At every position finally marked `'X'` (with the guess letter not the
sentinel), the occurrences of the guess letter in the working target are
exactly the ones consumed by `'Y'` positions of that letter. -/
lemma yellowPass_X_eq :
    ∀ {gq g : List Char},
      List.Forall₂ (fun b c' => b ≠ '-' → b = c') gq g →
      ∀ {rs : List Char},
        List.Forall₂ (fun a b => a = 'G' ↔ b = '-') rs gq →
        (∀ a ∈ rs, a ≠ 'Y') → '-' ∉ g →
      ∀ (T : List Char) (p : List (Char × Char)) (c : Char)
        (s : List (Char × Char)),
        g.zip (yellowPass gq rs T).1 = p ++ (c, 'X') :: s →
        T.count c = countYp p c + countYp s c := by
  intro gq g h
  induction h with
  | nil =>
    intro rs _ _ _ T p c s hsplit
    cases p <;> simp [yellowPass] at hsplit
  | @cons b c₀ gq₂ g₂ hbc htail ih =>
    intro rs hGdash hNoY hdash T p c s hsplit
    cases rs with
    | nil => cases p <;> simp [yellowPass] at hsplit
    | cons a rs₂ =>
      obtain ⟨hab, hGtail⟩ := List.forall₂_cons.mp hGdash
      have hNoY₂ : ∀ x ∈ rs₂, x ≠ 'Y' :=
        fun x hx => hNoY x (List.mem_cons_of_mem a hx)
      have hdash₂ : '-' ∉ g₂ := fun hm => hdash (List.mem_cons_of_mem c₀ hm)
      by_cases hf : b ≠ '-' ∧ b ∈ T
      · have hb : b = c₀ := hbc hf.1
        rw [yellowPass_cons_pos hf] at hsplit
        cases p with
        | nil =>
          simp only [List.zip_cons_cons, List.nil_append, List.cons.injEq,
            Prod.mk.injEq] at hsplit
          exact absurd hsplit.1.2 (by decide)
        | cons q p₂ =>
          simp only [List.zip_cons_cons, List.cons_append,
            List.cons.injEq] at hsplit
          obtain ⟨hq, hsplit₂⟩ := hsplit
          have hIH := ih hGtail hNoY₂ hdash₂ _ p₂ c s hsplit₂
          by_cases hcc : c₀ = c
          · have hcount := count_set_indexOf_self T b hf.2 hf.1
            have hbcc : b = c := hb.trans hcc
            rw [hbcc] at hcount hIH
            rw [← hq, hcc]
            simp only [countYp, List.countP_cons, beq_self_eq_true,
              Bool.and_self, if_true]
            simp only [countYp] at hIH
            omega
          · have hcg : c ∈ g₂ :=
              (List.of_mem_zip (mem_of_split hsplit₂)).1
            have hcd : c ≠ '-' := fun hcdash => hdash₂ (hcdash ▸ hcg)
            have hbc' : b ≠ c := fun hbeq => hcc (hb ▸ hbeq)
            have hother := count_set_indexOf_other T b c hf.2 hbc' hcd
            rw [hother] at hIH
            rw [← hq]
            simp only [countYp, List.countP_cons]
            simp only [countYp] at hIH
            have hcond : ((c₀ == c) && ('Y' == 'Y')) = false := by
              simp [hcc]
            rw [hcond]
            simpa using hIH
      · have ha : a ≠ 'Y' := hNoY a (List.mem_cons_self a rs₂)
        rw [yellowPass_cons_neg hf] at hsplit
        cases p with
        | nil =>
          simp only [List.zip_cons_cons, List.nil_append, List.cons.injEq,
            Prod.mk.injEq] at hsplit
          obtain ⟨⟨hc₀c, haX⟩, hs⟩ := hsplit
          have hbnd : b ≠ '-' := fun hbd =>
            absurd (hab.mpr hbd) (by rw [haX]; decide)
          have hb : b = c₀ := hbc hbnd
          have hbT : b ∉ T := fun hmem => hf ⟨hbnd, hmem⟩
          have hcT : c ∉ T := by rw [← hc₀c, ← hb]; exact hbT
          have hcd : c ≠ '-' := by rw [← hc₀c, ← hb]; exact hbnd
          have hzero := yellowPass_countYp_zero htail hNoY₂ T c hcT hcd
          rw [hs] at hzero
          rw [List.count_eq_zero.mpr hcT]
          simp only [countYp] at hzero ⊢
          simp [hzero]
        | cons q p₂ =>
          simp only [List.zip_cons_cons, List.cons_append,
            List.cons.injEq] at hsplit
          obtain ⟨hq, hsplit₂⟩ := hsplit
          have hIH := ih hGtail hNoY₂ hdash₂ T p₂ c s hsplit₂
          rw [← hq]
          simp only [countYp, List.countP_cons]
          have hcond : ((c₀ == c) && (a == 'Y')) = false := by
            simp [ha]
          rw [hcond]
          simpa [countYp] using hIH

/-- Letter budget of the whole yellow pass: positions finally marked `'G'`
or `'Y'` with guess letter `L` are bounded by the `'G'` positions of `L`
plus the remaining occurrences of `L` in the working target. -/
lemma yellowPass_GY_bound :
    ∀ {gq g : List Char},
      List.Forall₂ (fun b c' => b ≠ '-' → b = c') gq g →
      ∀ {rs : List Char},
        List.Forall₂ (fun a b => a = 'G' ↔ b = '-') rs gq →
        (∀ a ∈ rs, a ≠ 'Y') →
      ∀ (T : List Char) (L : Char), L ≠ '-' →
        countGYp (g.zip (yellowPass gq rs T).1) L ≤
          countGp (g.zip rs) L + T.count L := by
  intro gq g h
  induction h with
  | nil => intro rs _ T L _; simp [yellowPass, countGYp]
  | @cons b c₀ gq₂ g₂ hbc htail ih =>
    intro rs hGdash hNoY T L hL
    cases rs with
    | nil => simp [yellowPass, countGYp]
    | cons a rs₂ =>
      obtain ⟨hab, hGtail⟩ := List.forall₂_cons.mp hGdash
      have hNoY₂ : ∀ x ∈ rs₂, x ≠ 'Y' :=
        fun x hx => hNoY x (List.mem_cons_of_mem a hx)
      have ha : a ≠ 'Y' := hNoY a (List.mem_cons_self a rs₂)
      by_cases hf : b ≠ '-' ∧ b ∈ T
      · have hb : b = c₀ := hbc hf.1
        have haG : a ≠ 'G' := fun hG => hf.1 (hab.mp hG)
        rw [yellowPass_cons_pos hf]
        simp only [countGYp, countGp, List.zip_cons_cons, List.countP_cons]
        have hIH := ih hGtail hNoY₂ (T.set (List.indexOf b T) '-') L hL
        simp only [countGYp, countGp] at hIH
        by_cases hcL : c₀ = L
        · have hbL : b = L := hb.trans hcL
          subst hbL
          have hcount := count_set_indexOf_self T b hf.2 hf.1
          simp [hcL, haG]
          omega
        · have hbL : b ≠ L := fun hbeq => hcL (hb ▸ hbeq)
          have hother := count_set_indexOf_other T b L hf.2 hbL hL
          rw [hother] at hIH
          simp [hcL, haG]
          omega
      · rw [yellowPass_cons_neg hf]
        simp only [countGYp, countGp, List.zip_cons_cons, List.countP_cons]
        have hIH := ih hGtail hNoY₂ T L hL
        simp only [countGYp, countGp] at hIH
        by_cases hcL : c₀ = L <;> by_cases haG : a = 'G' <;>
          simp [hcL, haG, ha] <;> omega

/-! ## `check_word` facts -/

lemma zipWith_getD {α β γ : Type} (f : α → β → γ) :
    ∀ (l₁ : List α) (l₂ : List β) (k : Nat) (d₁ : α) (d₂ : β) (d₃ : γ),
      k < l₁.length → k < l₂.length →
      (List.zipWith f l₁ l₂).getD k d₃ = f (l₁.getD k d₁) (l₂.getD k d₂) := by
  intro l₁
  induction l₁ with
  | nil => intro l₂ k d₁ d₂ d₃ h₁ h₂; simp at h₁
  | cons a q ih =>
    intro l₂ k d₁ d₂ d₃ h₁ h₂
    cases l₂ with
    | nil => simp at h₂
    | cons b r =>
      cases k with
      | zero => rfl
      | succ m =>
        simpa using ih r m d₁ d₂ d₃ (by simpa using h₁) (by simpa using h₂)

/-- `check_word` seen through the green pass characterisation. -/
lemma check_word_eq (t g : List Char) :
    check_word t g =
      (yellowPass (List.zipWith (fun a b => if a = b then '-' else b) t g)
        (List.zipWith (fun a b => if a = b then 'G' else 'X') t g)
        (List.zipWith (fun a b => if a = b then '-' else a) t g)).1 := by
  show (yellowPass (greenPass t g).2.2 (greenPass t g).1 (greenPass t g).2.1).1
    = _
  rw [greenPass_eq_zipWith]

/-- A position of the feedback is Hit exactly when target and guess agree
there. -/
lemma check_word_G_iff (t g : List Char) (hlen : t.length = g.length)
    (hdash : '-' ∉ g) (k : Nat) (hk : k < g.length) :
    ((check_word t g).getD k '?' = 'G' ↔ t.getD k '?' = g.getD k '?') := by
  have h1 := yellowPass_G_iff (greenPass_G_iff_dash t g hdash)
    (List.zipWith (fun a b => if a = b then '-' else a) t g)
  rw [← check_word_eq t g] at h1
  have hkA : k < (List.zipWith
      (fun a b => if a = b then 'G' else 'X') t g).length := by
    simp [List.length_zipWith, hlen, hk]
  have h2 := forall₂_getD h1 k '?' '?' hkA
  have h3 := zipWith_getD (fun a b => if a = b then 'G' else 'X') t g k
    '?' '?' '?' (hlen ▸ hk) hk
  rw [h3] at h2
  rw [h2]
  by_cases he : t.getD k '?' = g.getD k '?' <;> simp [he]

/-- At a Present position the target letter differs from the guess letter
there, and the target holds strictly more copies of the guess letter than
accounted for by all Hits and the earlier Presents of that letter. -/
lemma check_word_Y_split (t g : List Char) (hlen : t.length = g.length)
    (hdash : '-' ∉ g) (p : List (Char × Char)) (c : Char)
    (s : List (Char × Char))
    (hsplit : g.zip (check_word t g) = p ++ (c, 'Y') :: s) :
    t.getD p.length '?' ≠ c ∧
      1 + countGp (g.zip (check_word t g)) c + countYp p c ≤ t.count c := by
  have hOrig := greenPass_guess_orig t g hlen
  have hGdash := greenPass_G_iff_dash t g hdash
  have hNoY := greenPass_no_Y t g
  have hcg : c ∈ g := (List.of_mem_zip (mem_of_split hsplit)).1
  have hcd : c ≠ '-' := fun hc => hdash (hc ▸ hcg)
  have hsplit' := hsplit
  rw [check_word_eq t g] at hsplit'
  have hylow := yellowPass_Y_lower hOrig hGdash hNoY hdash _ p c s hsplit'
  have hgcount := greenPass_count c hcd t g hlen
  have hGsame := yellowPass_countGp hGdash
    (List.zipWith (fun a b => if a = b then '-' else a) t g) g c
  rw [← check_word_eq t g] at hGsame
  constructor
  · have hklt : p.length < (g.zip (check_word t g)).length := by
      rw [hsplit]; simp
    have hkg : p.length < g.length := by
      rw [List.length_zip] at hklt; omega
    have hkR : p.length < (check_word t g).length := by
      rw [List.length_zip] at hklt; omega
    have hzget := zip_getD g (check_word t g) p.length '?' '?' hkg hkR
    rw [hsplit, split_getD] at hzget
    have hgk : g.getD p.length '?' = c := by
      rw [Prod.mk.injEq] at hzget; exact hzget.1.symm
    have hRk : (check_word t g).getD p.length '?' = 'Y' := by
      rw [Prod.mk.injEq] at hzget; exact hzget.2.symm
    intro hcontra
    have := (check_word_G_iff t g hlen hdash p.length hkg).mpr
      (by rw [hgk]; exact hcontra)
    rw [hRk] at this
    exact absurd this (by decide)
  · rw [hGsame]
    omega

/-- At an Absent position the target letter differs from the guess letter
there, and the occurrences of the guess letter in the target are exactly
the Hits plus the Presents of that letter. -/
lemma check_word_X_split (t g : List Char) (hlen : t.length = g.length)
    (hdash : '-' ∉ g) (p : List (Char × Char)) (c : Char)
    (s : List (Char × Char))
    (hsplit : g.zip (check_word t g) = p ++ (c, 'X') :: s) :
    t.getD p.length '?' ≠ c ∧
      t.count c = countGp (g.zip (check_word t g)) c +
        countYp (g.zip (check_word t g)) c := by
  have hOrig := greenPass_guess_orig t g hlen
  have hGdash := greenPass_G_iff_dash t g hdash
  have hNoY := greenPass_no_Y t g
  have hcg : c ∈ g := (List.of_mem_zip (mem_of_split hsplit)).1
  have hcd : c ≠ '-' := fun hc => hdash (hc ▸ hcg)
  have hsplit' := hsplit
  rw [check_word_eq t g] at hsplit'
  have hxeq := yellowPass_X_eq hOrig hGdash hNoY hdash _ p c s hsplit'
  have hgcount := greenPass_count c hcd t g hlen
  have hGsame := yellowPass_countGp hGdash
    (List.zipWith (fun a b => if a = b then '-' else a) t g) g c
  rw [← check_word_eq t g] at hGsame
  constructor
  · have hklt : p.length < (g.zip (check_word t g)).length := by
      rw [hsplit]; simp
    have hkg : p.length < g.length := by
      rw [List.length_zip] at hklt; omega
    have hkR : p.length < (check_word t g).length := by
      rw [List.length_zip] at hklt; omega
    have hzget := zip_getD g (check_word t g) p.length '?' '?' hkg hkR
    rw [hsplit, split_getD] at hzget
    have hgk : g.getD p.length '?' = c := by
      rw [Prod.mk.injEq] at hzget; exact hzget.1.symm
    have hRk : (check_word t g).getD p.length '?' = 'X' := by
      rw [Prod.mk.injEq] at hzget; exact hzget.2.symm
    intro hcontra
    have := (check_word_G_iff t g hlen hdash p.length hkg).mpr
      (by rw [hgk]; exact hcontra)
    rw [hRk] at this
    exact absurd this (by decide)
  · have hyfull : countYp (g.zip (check_word t g)) c =
        countYp p c + countYp s c := by
      rw [hsplit]
      simp [countYp, List.countP_append, List.countP_cons]
    rw [hGsame, hyfull]
    omega

/-- C6: over any five-letter target and guess (no sentinel in the guess),
the Hit-or-Present positions of any guess letter `L` never exceed the
occurrences of `L` in the target. -/
theorem C6_letter_budget (t g : List Char) (L : Char) (ht : t.length = 5)
    (hg : g.length = 5) (hdash : '-' ∉ g) :
    countGYp (g.zip (check_word t g)) L ≤ t.count L := by
  have hlen : t.length = g.length := by omega
  by_cases hLd : L = '-'
  · subst hLd
    have hz : countGYp (g.zip (check_word t g)) '-' = 0 := by
      rw [countGYp, List.countP_eq_zero]
      intro pr hpr
      have : pr.1 ∈ g := (List.of_mem_zip hpr).1
      have : pr.1 ≠ '-' := fun hc => hdash (hc ▸ this)
      simp [this]
    rw [hz]
    exact Nat.zero_le _
  · have hOrig := greenPass_guess_orig t g hlen
    have hGdash := greenPass_G_iff_dash t g hdash
    have hNoY := greenPass_no_Y t g
    have hbound := yellowPass_GY_bound hOrig hGdash hNoY
      (List.zipWith (fun a b => if a = b then '-' else a) t g) L hLd
    rw [← check_word_eq t g] at hbound
    have hgcount := greenPass_count L hLd t g hlen
    omega

/-- Witness for C6: the double letter case `check_word("LEVEL","EERIE")`. -/
theorem C6_letter_budget_witness :
    countGYp (['E', 'E', 'R', 'I', 'E'].zip
        (check_word ['L', 'E', 'V', 'E', 'L'] ['E', 'E', 'R', 'I', 'E']))
      'E' ≤ ['L', 'E', 'V', 'E', 'L'].count 'E' :=
  C6_letter_budget ['L', 'E', 'V', 'E', 'L'] ['E', 'E', 'R', 'I', 'E'] 'E'
    (by rfl) (by rfl) (by decide)

/-! ## Filter pass lemmas and C1 -/

/-- The guess letters of the positions of `pr` whose symbol is `'G'`, in
order: the `green` list accumulated by the green filter pass. -/
def greensOf (pr : List (Char × Char)) : List Char :=
  (pr.filter (fun p => p.2 == 'G')).map Prod.fst

/-- The guess letters of the positions of `pr` whose symbol is `'Y'`, in
order: the `yellow` list accumulated by the yellow filter pass. -/
def yellowsOf (pr : List (Char × Char)) : List Char :=
  (pr.filter (fun p => p.2 == 'Y')).map Prod.fst

lemma greensOf_count : ∀ (pr : List (Char × Char)) (c : Char),
    (greensOf pr).count c = countGp pr c := by
  intro pr
  induction pr with
  | nil => intro c; simp [greensOf, countGp]
  | cons q rest ih =>
    intro c
    obtain ⟨g, r⟩ := q
    by_cases hr : r = 'G'
    · subst hr
      have hg : greensOf ((g, 'G') :: rest) = g :: greensOf rest := by
        simp [greensOf, List.filter_cons]
      have hc : countGp ((g, 'G') :: rest) c =
          countGp rest c + if (g == c) = true then 1 else 0 := by
        simp [countGp, List.countP_cons]
      rw [hg, List.count_cons, hc, ih c]
    · have hg : greensOf ((g, r) :: rest) = greensOf rest := by
        simp [greensOf, List.filter_cons, hr]
      have hc : countGp ((g, r) :: rest) c = countGp rest c := by
        simp [countGp, List.countP_cons, hr]
      rw [hg, hc, ih c]

lemma yellowsOf_count : ∀ (pr : List (Char × Char)) (c : Char),
    (yellowsOf pr).count c = countYp pr c := by
  intro pr
  induction pr with
  | nil => intro c; simp [yellowsOf, countYp]
  | cons q rest ih =>
    intro c
    obtain ⟨g, r⟩ := q
    by_cases hr : r = 'Y'
    · subst hr
      have hg : yellowsOf ((g, 'Y') :: rest) = g :: yellowsOf rest := by
        simp [yellowsOf, List.filter_cons]
      have hc : countYp ((g, 'Y') :: rest) c =
          countYp rest c + if (g == c) = true then 1 else 0 := by
        simp [countYp, List.countP_cons]
      rw [hg, List.count_cons, hc, ih c]
    · have hg : yellowsOf ((g, r) :: rest) = yellowsOf rest := by
        simp [yellowsOf, List.filter_cons, hr]
      have hc : countYp ((g, r) :: rest) c = countYp rest c := by
        simp [countYp, List.countP_cons, hr]
      rw [hg, hc, ih c]

lemma filterGreens_acc : ∀ (pr : List (Char × Char)) (i : Nat)
    (wl : List Word) (green : List Char),
    (filterGreens pr i wl green).2 = green ++ greensOf pr := by
  intro pr
  induction pr with
  | nil => intro i wl green; simp [filterGreens, greensOf]
  | cons q rest ih =>
    intro i wl green
    obtain ⟨g, r⟩ := q
    by_cases hr : r = 'G' <;>
      simp [filterGreens, greensOf, List.filter_cons, hr, ih]

lemma filterYellows_acc : ∀ (pr : List (Char × Char)) (i : Nat)
    (wl : List Word) (green yellow : List Char),
    (filterYellows pr i wl green yellow).2 = yellow ++ yellowsOf pr := by
  intro pr
  induction pr with
  | nil => intro i wl green yellow; simp [filterYellows, yellowsOf]
  | cons q rest ih =>
    intro i wl green yellow
    obtain ⟨g, r⟩ := q
    by_cases hr : r = 'Y' <;>
      simp [filterYellows, yellowsOf, List.filter_cons, hr, ih]

/-- A word that agrees with the guess on every Hit position survives the
green filter pass. -/
lemma filterGreens_keep (t : Word) :
    ∀ (pr : List (Char × Char)) (i : Nat) (wl : List Word)
      (green : List Char), t ∈ wl →
      (∀ (p : List (Char × Char)) (c : Char) (s : List (Char × Char)),
        pr = p ++ (c, 'G') :: s → t.getD (i + p.length) '?' = c) →
      t ∈ (filterGreens pr i wl green).1 := by
  intro pr
  induction pr with
  | nil => intro i wl green ht _; simpa [filterGreens] using ht
  | cons q rest ih =>
    intro i wl green ht hyp
    obtain ⟨g, r⟩ := q
    by_cases hr : r = 'G'
    · subst hr
      simp only [filterGreens, if_pos rfl]
      apply ih
      · apply List.mem_filter.mpr
        refine ⟨ht, ?_⟩
        have h0 := hyp [] g rest rfl
        simp only [List.length_nil, Nat.add_zero] at h0
        show (t.getD i '?' == g) = true
        rw [beq_iff_eq]
        exact h0
      · intro p c s hsplit
        have h2 := hyp ((g, 'G') :: p) c s (by rw [hsplit, List.cons_append])
        rw [List.length_cons] at h2
        have h3 : i + (p.length + 1) = i + 1 + p.length := by omega
        rw [h3] at h2
        exact h2
    · simp only [filterGreens, if_neg hr]
      apply ih _ _ _ ht
      intro p c s hsplit
      have h2 := hyp ((g, r) :: p) c s (by rw [hsplit, List.cons_append])
      rw [List.length_cons] at h2
      have h3 : i + (p.length + 1) = i + 1 + p.length := by omega
      rw [h3] at h2
      exact h2

/-- A word that avoids the guess letter at every Present position and has
enough copies of each Present letter survives the yellow filter pass. -/
lemma filterYellows_keep (t : Word) (green : List Char) :
    ∀ (pr : List (Char × Char)) (i : Nat) (wl : List Word)
      (yellow : List Char), t ∈ wl →
      (∀ (p : List (Char × Char)) (c : Char) (s : List (Char × Char)),
        pr = p ++ (c, 'Y') :: s →
        t.getD (i + p.length) '?' ≠ c ∧
          1 + green.count c + yellow.count c + countYp p c ≤ t.count c) →
      t ∈ (filterYellows pr i wl green yellow).1 := by
  intro pr
  induction pr with
  | nil => intro i wl yellow ht _; simpa [filterYellows] using ht
  | cons q rest ih =>
    intro i wl yellow ht hyp
    obtain ⟨g, r⟩ := q
    by_cases hr : r = 'Y'
    · subst hr
      simp only [filterYellows, if_pos rfl]
      apply ih
      · have h0 := hyp [] g rest rfl
        simp only [List.length_nil, Nat.add_zero, countYp,
          List.countP_nil] at h0
        apply List.mem_filter.mpr
        refine ⟨List.mem_filter.mpr ⟨ht, ?_⟩, ?_⟩
        · show (!(t.getD i '?' == g)) = true
          rw [Bool.not_eq_eq_eq_not, Bool.not_true, beq_eq_false_iff_ne]
          exact h0.1
        · show decide (1 + green.count g + yellow.count g ≤ t.count g) = true
          rw [decide_eq_true_eq]
          omega
      · intro p c s hsplit
        have h2 := hyp ((g, 'Y') :: p) c s (by rw [hsplit, List.cons_append])
        rw [List.length_cons] at h2
        have h3 : i + (p.length + 1) = i + 1 + p.length := by omega
        rw [h3] at h2
        refine ⟨h2.1, ?_⟩
        have h4 := h2.2
        simp only [countYp, List.countP_cons, List.count_append,
          List.count_singleton] at h4 ⊢
        by_cases hgc : g = c <;> simp [hgc] at h4 ⊢ <;> omega
    · simp only [filterYellows, if_neg hr]
      apply ih _ _ _ ht
      intro p c s hsplit
      have h2 := hyp ((g, r) :: p) c s (by rw [hsplit, List.cons_append])
      rw [List.length_cons] at h2
      have h3 : i + (p.length + 1) = i + 1 + p.length := by omega
      rw [h3] at h2
      refine ⟨h2.1, ?_⟩
      have h4 := h2.2
      simp only [countYp, List.countP_cons] at h4 ⊢
      rw [show ((g == c) && (r == 'Y')) = false by simp [hr]] at h4
      simpa using h4

/-- A word that avoids the guess letter at every Absent position and whose
count of each Absent letter equals the confirmed count survives the grey
filter pass. -/
lemma filterGreys_keep (t : Word) (green yellow : List Char) :
    ∀ (pr : List (Char × Char)) (i : Nat) (wl : List Word), t ∈ wl →
      (∀ (p : List (Char × Char)) (c : Char) (s : List (Char × Char)),
        pr = p ++ (c, 'X') :: s →
        t.getD (i + p.length) '?' ≠ c ∧
          t.count c = green.count c + yellow.count c) →
      t ∈ filterGreys pr i wl green yellow := by
  intro pr
  induction pr with
  | nil => intro i wl ht _; simpa [filterGreys] using ht
  | cons q rest ih =>
    intro i wl ht hyp
    obtain ⟨g, r⟩ := q
    by_cases hr : r = 'X'
    · subst hr
      simp only [filterGreys, if_pos rfl]
      apply ih
      · have h0 := hyp [] g rest rfl
        simp only [List.length_nil, Nat.add_zero] at h0
        apply List.mem_filter.mpr
        refine ⟨List.mem_filter.mpr ⟨ht, ?_⟩, ?_⟩
        · show (!(t.getD i '?' == g)) = true
          rw [Bool.not_eq_eq_eq_not, Bool.not_true, beq_eq_false_iff_ne]
          exact h0.1
        · show (t.count g == green.count g + yellow.count g) = true
          rw [beq_iff_eq]
          exact h0.2
      · intro p c s hsplit
        have h2 := hyp ((g, 'X') :: p) c s (by rw [hsplit, List.cons_append])
        rw [List.length_cons] at h2
        have h3 : i + (p.length + 1) = i + 1 + p.length := by omega
        rw [h3] at h2
        exact h2
    · simp only [filterGreys, if_neg hr]
      apply ih _ _ ht
      intro p c s hsplit
      have h2 := hyp ((g, r) :: p) c s (by rw [hsplit, List.cons_append])
      rw [List.length_cons] at h2
      have h3 : i + (p.length + 1) = i + 1 + p.length := by omega
      rw [h3] at h2
      exact h2

/-- Components of a split of a zipped pair list. -/
lemma zip_split_components {g R : List Char} {p : List (Char × Char)}
    {c x : Char} {s : List (Char × Char)}
    (hsplit : g.zip R = p ++ (c, x) :: s) :
    g.getD p.length '?' = c ∧ R.getD p.length '?' = x ∧
      p.length < g.length := by
  have hklt : p.length < (g.zip R).length := by
    rw [hsplit]; simp
  have hkg : p.length < g.length := by
    rw [List.length_zip] at hklt; omega
  have hkR : p.length < R.length := by
    rw [List.length_zip] at hklt; omega
  have hzget := zip_getD g R p.length '?' '?' hkg hkR
  rw [hsplit, split_getD] at hzget
  rw [Prod.mk.injEq] at hzget
  exact ⟨hzget.1.symm, hzget.2.symm, hkg⟩

/-- C1: a five-letter target surviving in the candidate list is never
eliminated by the feedback its own guess produces: filtering the list with
`check_word(target, guess)` keeps the target. -/
theorem C1_filter_soundness (t g : List Char) (wl : List Word)
    (ht : t.length = 5) (hg : g.length = 5) (hdash : '-' ∉ g)
    (hmem : t ∈ wl) :
    t ∈ filter_wordlist wl g (check_word t g) := by
  have hlen : t.length = g.length := by omega
  have hgoal : filter_wordlist wl g (check_word t g) =
      filterGreys (g.zip (check_word t g)) 0
        (filterYellows (g.zip (check_word t g)) 0
          (filterGreens (g.zip (check_word t g)) 0 wl []).1
          (filterGreens (g.zip (check_word t g)) 0 wl []).2 []).1
        (filterGreens (g.zip (check_word t g)) 0 wl []).2
        (filterYellows (g.zip (check_word t g)) 0
          (filterGreens (g.zip (check_word t g)) 0 wl []).1
          (filterGreens (g.zip (check_word t g)) 0 wl []).2 []).2 := rfl
  rw [hgoal]
  have hacc1 : (filterGreens (g.zip (check_word t g)) 0 wl []).2 =
      greensOf (g.zip (check_word t g)) := by
    rw [filterGreens_acc]; simp
  have step1 : t ∈ (filterGreens (g.zip (check_word t g)) 0 wl []).1 := by
    apply filterGreens_keep t _ _ _ _ hmem
    intro p c s hsplit
    obtain ⟨hgk, hRk, hkg⟩ := zip_split_components hsplit
    have h2 := (check_word_G_iff t g hlen hdash p.length hkg).mp hRk
    rw [hgk] at h2
    simpa using h2
  have step2 : t ∈ (filterYellows (g.zip (check_word t g)) 0
      (filterGreens (g.zip (check_word t g)) 0 wl []).1
      (filterGreens (g.zip (check_word t g)) 0 wl []).2 []).1 := by
    apply filterYellows_keep t _ _ _ _ _ step1
    intro p c s hsplit
    obtain ⟨hy1, hy2⟩ := check_word_Y_split t g hlen hdash p c s hsplit
    refine ⟨by simpa using hy1, ?_⟩
    rw [hacc1, greensOf_count]
    simpa using hy2
  apply filterGreys_keep t _ _ _ _ _ step2
  intro p c s hsplit
  obtain ⟨hx1, hx2⟩ := check_word_X_split t g hlen hdash p c s hsplit
  refine ⟨by simpa using hx1, ?_⟩
  rw [hacc1, greensOf_count, filterYellows_acc]
  simp only [List.nil_append, yellowsOf_count]
  exact hx2

/-- Witness for C1: the target `"LEVEL"` survives filtering by its own
feedback on the guess `"EERIE"`. -/
theorem C1_filter_soundness_witness :
    ['L', 'E', 'V', 'E', 'L'] ∈
      filter_wordlist [['L', 'E', 'V', 'E', 'L'], ['B', 'E', 'V', 'E', 'L']]
        ['E', 'E', 'R', 'I', 'E']
        (check_word ['L', 'E', 'V', 'E', 'L'] ['E', 'E', 'R', 'I', 'E']) :=
  C1_filter_soundness ['L', 'E', 'V', 'E', 'L'] ['E', 'E', 'R', 'I', 'E']
    [['L', 'E', 'V', 'E', 'L'], ['B', 'E', 'V', 'E', 'L']]
    (by rfl) (by rfl) (by decide) (by simp)

/-! ## Selector membership lemmas and C10 -/

lemma getD_mem {α : Type} {l : List α} {n : Nat} (d : α)
    (h : n < l.length) : l.getD n d ∈ l := by
  rw [List.getD_eq_getElem l d h]
  exact List.getElem_mem h

/-- The minimisation fold only ever selects a pool word. -/
lemma foldl_bestStep_mem (pen : Word → ℚ) (sublist : List Word) (w : Word) :
    ∀ (pool : List Word) (acc : Option Word × ℚ),
      (pool.foldl (bestStep pen sublist) acc).1 = some w →
      acc.1 = some w ∨ w ∈ pool := by
  intro pool
  induction pool with
  | nil => intro acc h; exact Or.inl h
  | cons x xs ih =>
    intro acc h
    rcases ih (bestStep pen sublist acc x) h with h2 | h2
    · unfold bestStep at h2
      split_ifs at h2 with hc
      · simp only at h2
        obtain rfl := Option.some.inj h2
        exact Or.inr (List.mem_cons_self x xs)
      · exact Or.inl h2
    · exact Or.inr (List.mem_cons_of_mem x h2)

/-- Whatever the full search returns is a pool word. -/
lemma selectFull_mem (pen : Word → ℚ) (pool sublist : List Word) (w : Word)
    (h : selectFull pen pool sublist = some w) : w ∈ pool := by
  unfold selectFull at h
  split_ifs at h with he
  rcases foldl_bestStep_mem pen sublist w pool (none, 999999999999) h with
    h2 | h2
  · simp at h2
  · exact h2

/-- Whatever the general search returns is a pool word. -/
lemma fullSearch_mem (wordlist filtered : List Word) (pen : Word → ℚ)
    (hardmode : Bool) (mc : Nat) (sampler : List Word → Nat → List Word)
    (w : Word)
    (h : fullSearch wordlist filtered pen hardmode mc sampler = some w) :
    w ∈ simPool wordlist filtered hardmode := by
  unfold fullSearch at h
  exact selectFull_mem _ _ _ _ h

/-- The head of the sorted penalty list is a candidate. -/
lemma sortedPens_getD_mem (filtered : List Word) (pen : Word → ℚ)
    (hne : filtered ≠ []) :
    ((sortedPens filtered pen).getD 0 ([], 0)).1 ∈ filtered := by
  have hlen : 0 < (sortedPens filtered pen).length := by
    rw [sortedPens, List.length_insertionSort, List.length_map]
    exact List.length_pos.mpr hne
  have h2 : (sortedPens filtered pen).getD 0 ([], 0) ∈
      filtered.map (fun w => (w, pen w)) := by
    have h0 : (sortedPens filtered pen).getD 0 ([], 0) ∈
        sortedPens filtered pen := getD_mem _ hlen
    unfold sortedPens at h0
    rw [List.mem_insertionSort] at h0
    unfold sortedPens
    exact h0
  obtain ⟨w', hw', heq⟩ := List.mem_map.mp h2
  rw [← heq]
  exact hw'

/-- C10 (amended): any word the selector returns lies in the guess pool —
the candidate list in hard mode, the full lexicon otherwise (given that the
candidate list is drawn from the lexicon). -/
theorem C10_pool_membership (wordlist filtered : List Word) (pen : Word → ℚ)
    (hardmode : Bool) (hp : ℚ) (mc : Nat)
    (sampler : List Word → Nat → List Word) (w : Word)
    (hsub : ∀ x ∈ filtered, x ∈ wordlist)
    (hw : get_best_guess wordlist filtered pen hardmode hp mc sampler =
      some w) :
    (hardmode = true → w ∈ filtered) ∧
      (hardmode = false → w ∈ wordlist) := by
  have hfl : w ∈ filtered ∨ w ∈ simPool wordlist filtered hardmode := by
    unfold get_best_guess at hw
    by_cases h1 : filtered = []
    · rw [if_pos h1] at hw
      exact absurd hw (by simp)
    rw [if_neg h1] at hw
    by_cases h2 : filtered.length = 1
    · rw [if_pos h2] at hw
      obtain rfl := Option.some.inj hw
      exact Or.inl (getD_mem [] (by omega))
    rw [if_neg h2] at hw
    by_cases h3 : filtered.length = 2
    · rw [if_pos h3] at hw
      obtain rfl := Option.some.inj hw
      refine Or.inl ?_
      split_ifs <;> exact getD_mem [] (by omega)
    rw [if_neg h3] at hw
    by_cases h5 : filtered.length ≤ 6
    · rw [if_pos h5] at hw
      by_cases h6 : ((sortedPens filtered pen).getD 0 ([], 0)).2 ≤
          ((sortedPens filtered pen).getD 1 ([], 0)).2 - (hp - 1) / 4
      · rw [if_pos h6] at hw
        obtain rfl := Option.some.inj hw
        exact Or.inl (sortedPens_getD_mem filtered pen h1)
      · rw [if_neg h6] at hw
        exact Or.inr (fullSearch_mem _ _ _ _ _ _ _ hw)
    · rw [if_neg h5] at hw
      exact Or.inr (fullSearch_mem _ _ _ _ _ _ _ hw)
  constructor
  · intro hh
    rcases hfl with h | h
    · exact h
    · rw [simPool, hh] at h
      simpa using h
  · intro hh
    rcases hfl with h | h
    · exact hsub w h
    · rw [simPool, hh] at h
      simpa using h

/-- With 3..6 candidates and no clearly dominant penalty, the selector
falls through to the general search. -/
lemma get_best_guess_fallthrough (wordlist filtered : List Word)
    (pen : Word → ℚ) (hardmode : Bool) (hp : ℚ) (mc : Nat)
    (sampler : List Word → Nat → List Word)
    (h1 : ¬filtered = []) (h2 : ¬filtered.length = 1)
    (h3 : ¬filtered.length = 2) (h5 : filtered.length ≤ 6)
    (h6 : ¬(((sortedPens filtered pen).getD 0 ([], 0)).2 ≤
      ((sortedPens filtered pen).getD 1 ([], 0)).2 - (hp - 1) / 4)) :
    get_best_guess wordlist filtered pen hardmode hp mc sampler =
      fullSearch wordlist filtered pen hardmode mc sampler := by
  unfold get_best_guess
  rw [if_neg h1, if_neg h2, if_neg h3, if_pos h5, if_neg h6]

/-- When the comparison budget divided by the pool size is zero, the sample
is empty and the search returns no guess at all. -/
lemma fullSearch_empty_sample (wordlist filtered : List Word)
    (pen : Word → ℚ) (hardmode : Bool) (mc : Nat)
    (sampler : List Word → Nat → List Word)
    (hc : comparesPerWord mc (simPool wordlist filtered hardmode) = 0)
    (hl : ¬filtered.length ≤ 0) (hsam : sampler filtered 0 = []) :
    fullSearch wordlist filtered pen hardmode mc sampler = none := by
  show selectFull pen (simPool wordlist filtered hardmode)
    (simSample filtered
      (comparesPerWord mc (simPool wordlist filtered hardmode)) sampler) =
    none
  rw [hc]
  unfold simSample
  rw [if_neg hl, hsam]
  unfold selectFull
  simp

/-- C10 counterexample: with a lexicon of 1000001 words (larger than
`max_comparisons = 1000000`), three equally common candidates and hard mode
off, `compares_per_word` is `0`, the sample is empty, `result_dict` stays
empty, and the selector returns `None` — no member of the guess pool —
despite the candidate list being non-empty. -/
theorem C10_counterexample :
    get_best_guess
      (['c', 'r', 'a', 'n', 'e'] :: ['s', 'l', 'a', 't', 'e'] ::
        ['b', 'r', 'i', 'c', 'k'] ::
        List.replicate 999998 ['p', 'l', 'u', 'm', 'b'])
      [['c', 'r', 'a', 'n', 'e'], ['s', 'l', 'a', 't', 'e'],
        ['b', 'r', 'i', 'c', 'k']]
      (fun _ => 1) false (5/2) 1000000 (fun l n => l.take n) = none ∧
    ([['c', 'r', 'a', 'n', 'e'], ['s', 'l', 'a', 't', 'e'],
      ['b', 'r', 'i', 'c', 'k']] : List Word) ≠ [] := by
  refine ⟨?_, by decide⟩
  have hpens : sortedPens
      [['c', 'r', 'a', 'n', 'e'], ['s', 'l', 'a', 't', 'e'],
        ['b', 'r', 'i', 'c', 'k']] (fun _ => (1 : ℚ)) =
      [(['c', 'r', 'a', 'n', 'e'], 1), (['s', 'l', 'a', 't', 'e'], 1),
        (['b', 'r', 'i', 'c', 'k'], 1)] := by
    unfold sortedPens
    simp [List.insertionSort, List.orderedInsert]
  have h6 : ¬((sortedPens
      [['c', 'r', 'a', 'n', 'e'], ['s', 'l', 'a', 't', 'e'],
        ['b', 'r', 'i', 'c', 'k']] (fun _ => (1 : ℚ))).getD 0 ([], 0)).2 ≤
      ((sortedPens
      [['c', 'r', 'a', 'n', 'e'], ['s', 'l', 'a', 't', 'e'],
        ['b', 'r', 'i', 'c', 'k']] (fun _ => (1 : ℚ))).getD 1 ([], 0)).2 -
      ((5 : ℚ)/2 - 1) / 4 := by
    rw [hpens]
    norm_num
  have hlen : (['c', 'r', 'a', 'n', 'e'] :: ['s', 'l', 'a', 't', 'e'] ::
      ['b', 'r', 'i', 'c', 'k'] ::
      List.replicate 999998 ['p', 'l', 'u', 'm', 'b'] :
      List Word).length = 1000001 := by
    rw [List.length_cons, List.length_cons, List.length_cons,
      List.length_replicate]
  have hc : comparesPerWord 1000000
      (simPool
        (['c', 'r', 'a', 'n', 'e'] :: ['s', 'l', 'a', 't', 'e'] ::
          ['b', 'r', 'i', 'c', 'k'] ::
          List.replicate 999998 ['p', 'l', 'u', 'm', 'b'])
        [['c', 'r', 'a', 'n', 'e'], ['s', 'l', 'a', 't', 'e'],
          ['b', 'r', 'i', 'c', 'k']] false) = 0 := by
    have hpool : simPool
        (['c', 'r', 'a', 'n', 'e'] :: ['s', 'l', 'a', 't', 'e'] ::
          ['b', 'r', 'i', 'c', 'k'] ::
          List.replicate 999998 ['p', 'l', 'u', 'm', 'b'])
        [['c', 'r', 'a', 'n', 'e'], ['s', 'l', 'a', 't', 'e'],
          ['b', 'r', 'i', 'c', 'k']] false =
        ['c', 'r', 'a', 'n', 'e'] :: ['s', 'l', 'a', 't', 'e'] ::
          ['b', 'r', 'i', 'c', 'k'] ::
          List.replicate 999998 ['p', 'l', 'u', 'm', 'b'] := rfl
    rw [hpool]
    unfold comparesPerWord
    rw [hlen]
    rw [Nat.div_eq_of_lt (by norm_num)]
    simp
  rw [get_best_guess_fallthrough _ _ _ _ _ _ _ (by decide) (by decide)
    (by decide) (by decide) h6]
  exact fullSearch_empty_sample _ _ _ _ _ _ hc (by decide) rfl

/-- Witness for C10 (amended): with a single candidate the selector returns
it, and it lies in the candidate list and the lexicon. -/
theorem C10_pool_membership_witness :
    (false = true → ['c', 'r', 'a', 'n', 'e'] ∈
      ([['c', 'r', 'a', 'n', 'e']] : List Word)) ∧
    (false = false → ['c', 'r', 'a', 'n', 'e'] ∈
      ([['c', 'r', 'a', 'n', 'e']] : List Word)) :=
  C10_pool_membership [['c', 'r', 'a', 'n', 'e']] [['c', 'r', 'a', 'n', 'e']]
    (fun _ => 1) false (5/2) 1000000 (fun l n => l.take n)
    ['c', 'r', 'a', 'n', 'e'] (fun x hx => hx) (by rfl)

end WordleSolver
